import Mathlib

/-!
Shallow embedding of the interaction logic of the multi-select autocomplete
widget (`src/components/MultiSelect.tsx` and the `useDebounce` hook).

State and operations are translated directly from the component source:
selection toggling/removal (`handleOptionClick`, `handleRemoveOption`),
the debounced search handler (`handleSearch`), the highlight formatter
(`highlightSearchTerm`), and the keyboard controller (`handleKeyDown`).
The highlighted index is modelled as an `Int` because the JavaScript
arithmetic `Math.min(prevIndex + 1, results.length - 1)` can produce `-1`
when the results list is empty.
-/

namespace MultiSelect

/-- A character record as received from the remote API
(`interface Character` in `MultiSelect.tsx`). -/
structure Character where
  id : Int
  name : String
  image : String
  episode : List String
deriving DecidableEq

/-- The component's view-local state: the six `useState` cells of
`MultiSelect.tsx`. -/
structure ComponentState where
  selectedOptions : List String
  searchTerm : String
  loading : Bool
  error : Option String
  results : List Character
  highlightedIndex : Int
deriving DecidableEq

/-- Models `handleOptionClick`: if the option is already selected it is removed
(`selectedOptions.filter(item => item !== option)`), otherwise it is
appended to the end (`[...selectedOptions, option]`). -/
def toggleOption (option : String) (sel : List String) : List String :=
  if option ∈ sel then sel.filter (fun item => item ≠ option)
  else sel ++ [option]

/-- Models `handleRemoveOption`: removes every occurrence of `option` by string
equality (`selectedOptions.filter(item => item !== option)`). -/
def removeOption (option : String) (sel : List String) : List String :=
  sel.filter (fun item => item ≠ option)

/-- The possible outcomes of the single axios request issued by
`handleSearch`: a success carrying the decoded result list, a rejection
with no response object (network failure), or a rejection carrying an
HTTP status. -/
inductive SearchOutcome where
  | success (results : List Character)
  | noResponse
  | errorStatus (status : Int)
deriving DecidableEq

/-- The state updates applied by the body of `handleSearch` once the
request has settled with `outcome`, starting from the state in which the
request was issued (after `setLoading(true)`).  Mirrors the
`try`/`catch`/`finally` of `MultiSelect.tsx` lines 33-63: on success a
non-empty term stores the results and a (literally) empty term clears
results and resets the highlighted index; every error branch sets its
message and clears results; the `finally` clause sets `loading` to
`false` in all cases. -/
def applySearchResponse (term : String) (outcome : SearchOutcome)
    (s : ComponentState) : ComponentState :=
  match outcome with
  | .success rs =>
      if term ≠ "" then
        { s with results := rs, error := none, loading := false }
      else
        { s with results := [], highlightedIndex := 0, error := none, loading := false }
  | .noResponse =>
      { s with error := some "Something wrong with network", results := [], loading := false }
  | .errorStatus status =>
      if status = 404 then
        { s with error := some "No results found", results := [], loading := false }
      else
        { s with error := some "Something wrong with server", results := [], loading := false }

/-- One full run of the `handleSearch` callback for a given term and
request outcome: the first component is the state right after
`setLoading(true)` (the request in flight), the second is the state after
the response has been handled and the `finally` cleanup has run. -/
def handleSearchTrace (term : String) (outcome : SearchOutcome)
    (s : ComponentState) : ComponentState × ComponentState :=
  let mid := { s with loading := true }
  (mid, applySearchResponse term outcome mid)

/-- JavaScript indexing `results[i]`: `undefined` (here `none`) for a
negative or out-of-range index. -/
def resultAt (results : List Character) (i : Int) : Option Character :=
  if i < 0 then none else results.get? i.toNat

/-- The key events distinguished by the `switch` in `handleKeyDown`;
`tab` carries the shift-modifier flag, `other` stands for every key that
falls through to the `default` branch. -/
inductive KeyEvent where
  | arrowDown
  | arrowUp
  | tab (shift : Bool)
  | enter
  | backspace
  | other
deriving DecidableEq

/-- Models `handleKeyDown` (`MultiSelect.tsx` lines 135-175), translated case by
case.  ArrowDown sets the index to
`Math.min(prevIndex + 1, results.length - 1)`, ArrowUp to
`Math.max(prevIndex - 1, 0)`; Tab moves only under its explicit bound
check; Enter toggles the name of `results[highlightedIndex]` only when
that access yields a value; Backspace removes the last selected option
only when the search term is empty and a selection exists. -/
def handleKeyDown (key : KeyEvent) (s : ComponentState) : ComponentState :=
  match key with
  | .arrowDown =>
      { s with highlightedIndex := min (s.highlightedIndex + 1) ((s.results.length : Int) - 1) }
  | .arrowUp =>
      { s with highlightedIndex := max (s.highlightedIndex - 1) 0 }
  | .tab true =>
      if 0 < s.highlightedIndex then
        { s with highlightedIndex := s.highlightedIndex - 1 }
      else s
  | .tab false =>
      if s.highlightedIndex < (s.results.length : Int) - 1 then
        { s with highlightedIndex := s.highlightedIndex + 1 }
      else s
  | .enter =>
      match resultAt s.results s.highlightedIndex with
      | some r => { s with selectedOptions := toggleOption r.name s.selectedOptions }
      | none => s
  | .backspace =>
      if s.searchTerm = "" then
        match s.selectedOptions.getLast? with
        | some l =>
            { s with selectedOptions := s.selectedOptions.filter (fun item => item ≠ l) }
        | none => s
      else s
  | .other => s

/-- The query-state invariant stated in the specification: whenever the
results list is non-empty the highlighted index lies within
`[0, results.length - 1]`. -/
def queryInvariant (s : ComponentState) : Prop :=
  s.results ≠ [] →
    0 ≤ s.highlightedIndex ∧ s.highlightedIndex ≤ (s.results.length : Int) - 1

instance (s : ComponentState) : Decidable (queryInvariant s) := by
  unfold queryInvariant; infer_instance

/-! ### Highlight formatter

`highlightSearchTerm` calls `text.split(new RegExp("(" + searchTerm + ")", "gi"))`
and then emphasizes every part whose lowercasing equals the lowercased
search term.  Strings are modelled as `List Char` and the regular
expression is modelled for literal search terms (no regex
metacharacters), matching the case-insensitive flag by comparing
lowercased characters.

For a non-empty term, JavaScript `split` with a capturing group returns
the unmatched stretches interleaved with the captured (matched) slices,
scanning for leftmost matches.  For the empty term the pattern `()`
matches the empty string between any two characters, so `split` returns
the characters of the text interleaved with empty captured strings
(`"ab".split(/()/gi)` is `["a", "", "b"]`, and `"".split(/()/gi)` is `[]`). -/

/-- Lowercase a character list (models JavaScript `toLowerCase` on the
relevant alphabet). -/
def lowerChars (l : List Char) : List Char :=
  l.map Char.toLower

/-- If `text` starts with a case-insensitive occurrence of `term`,
return the matched slice of `text` (with its original casing) and the
remainder; otherwise `none`. -/
def dropMatchCI : List Char → List Char → Option (List Char × List Char)
  | [], text => some ([], text)
  | _ :: _, [] => none
  | t :: ts, c :: cs =>
      if c.toLower = t.toLower then
        (dropMatchCI ts cs).map (fun p => (c :: p.1, p.2))
      else none

/-- Leftmost case-insensitive occurrence of `term` in `text`:
`some (before, matched, rest)` with `before ++ matched ++ rest = text`,
or `none` when no occurrence exists. -/
def findCI (term : List Char) : List Char → Option (List Char × List Char × List Char)
  | [] =>
      match dropMatchCI term [] with
      | some (m, r) => some ([], m, r)
      | none => none
  | c :: cs =>
      match dropMatchCI term (c :: cs) with
      | some (m, r) => some ([], m, r)
      | none => (findCI term cs).map (fun p => (c :: p.1, p.2.1, p.2.2))

/-- Fuelled splitting of `text` on leftmost case-insensitive occurrences
of `term`, keeping the matched slices as separate parts (the captured
separators of the JavaScript `split`).  The fuel only serves
termination; `text.length + 1` is always enough for a non-empty term. -/
def splitCIFuel : Nat → List Char → List Char → List (List Char)
  | 0, _, text => [text]
  | fuel + 1, term, text =>
      match findCI term text with
      | none => [text]
      | some (b, m, r) => b :: m :: splitCIFuel fuel term r

/-- Models `text.split(/(term)/gi)` for a non-empty literal `term`. -/
def splitCI (term text : List Char) : List (List Char) :=
  splitCIFuel (text.length + 1) term text

/-- Models `text.split(/()/gi)`: the characters of `text` interleaved with the
empty captured separator. -/
def splitEmptyTerm : List Char → List (List Char)
  | [] => []
  | [c] => [[c]]
  | c :: cs => [c] :: [] :: splitEmptyTerm cs

/-- Models `text.split(new RegExp("(" + term + ")", "gi"))` for a literal term. -/
def jsSplitCapture (term text : List Char) : List (List Char) :=
  match term with
  | [] => splitEmptyTerm text
  | _ :: _ => splitCI term text

/-- Models `highlightSearchTerm` (`MultiSelect.tsx` lines 106-121): the rendered
segment list, each part paired with whether it is wrapped in `<strong>`,
i.e. whether `part.toLowerCase() === searchTerm.toLowerCase()`. -/
def highlightSearchTerm (text searchTerm : List Char) : List (List Char × Bool) :=
  (jsSplitCapture searchTerm text).map
    (fun part => (part, lowerChars part = lowerChars searchTerm))

/-- The text content of a rendered segment list: concatenation of the
parts in order. -/
def segsText (segs : List (List Char × Bool)) : List Char :=
  (segs.map Prod.fst).flatten

/-- Asserts that `text` contains a case-insensitive occurrence of `term` as a
contiguous substring. -/
def containsCI (term text : List Char) : Prop :=
  ∃ pre mid post, text = pre ++ (mid ++ post) ∧ lowerChars mid = lowerChars term

/-! ### Debounce utility

`useDebounce` stores at most one pending timer in `timeoutRef`.  Each
call of the debounced function clears any pending timer and schedules a
new one carrying the latest argument; the unmount cleanup clears any
pending timer.  The hook is modelled as a step function over a state
holding the optional pending call, the list of arguments actually
delivered to the wrapped callback, and whether the owner was torn
down. -/

/-- State of the debounce model: `pending` is the argument held by the
single `timeoutRef` timer (if any), `fired` records the calls delivered
to the wrapped callback in order, `tornDown` records that the owning
component's cleanup has run. -/
structure DebounceState (α : Type) where
  pending : Option α
  fired : List α
  tornDown : Bool
deriving DecidableEq

/-- Events acting on the debounce state: an invocation of the debounced
function with an argument, the expiry of the pending timer, and the
owner's unmount cleanup. -/
inductive DebounceEvent (α : Type) where
  | invoke (a : α)
  | fire
  | teardown
deriving DecidableEq

/-- One step of the debounce model (`useDebounce` in the hooks source):
`invoke a` clears any pending timer and schedules a new one with `a`
(`clearTimeout` then `setTimeout`); `fire` delivers the pending call to
the wrapped callback, if one is pending; `teardown` is the `useEffect`
cleanup, clearing any pending timer. -/
def debounceStep {α : Type} (e : DebounceEvent α) (s : DebounceState α) :
    DebounceState α :=
  match e with
  | .invoke a => { s with pending := some a }
  | .fire =>
      match s.pending with
      | some a => { s with pending := none, fired := s.fired ++ [a] }
      | none => s
  | .teardown => { s with pending := none, tornDown := true }

/-- Run a sequence of debounce events from a state. -/
def debounceRun {α : Type} (es : List (DebounceEvent α)) (s : DebounceState α) :
    DebounceState α :=
  es.foldl (fun t e => debounceStep e t) s

/-- Whether a debounce event is an invocation of the debounced function. -/
def DebounceEvent.isInvoke {α : Type} : DebounceEvent α → Bool
  | .invoke _ => true
  | _ => false

/-! ### Concrete sample data used by witnesses and counterexamples -/

/-- A sample result record. -/
def rick : Character := ⟨1, "Rick Sanchez", "rick.png", ["e1", "e2"]⟩

/-- A second sample result record. -/
def morty : Character := ⟨2, "Morty Smith", "morty.png", ["e1"]⟩

/-- A sample component state with two results and the second one
highlighted. -/
def sampleState : ComponentState := ⟨[], "a", false, none, [rick, morty], 1⟩

/-- A sample component state with an empty results list. -/
def emptyResultsState : ComponentState := ⟨["a", "b"], "", false, none, [], 0⟩

/-! ## Claim theorems -/

/-- C5: for every search term and every request outcome, `handleSearch`
sets the loading flag to `true` before the request starts and the
`finally` cleanup leaves it `false` once the request settles, whether the
request succeeds or fails. -/
theorem search_loading_lifecycle (term : String) (outcome : SearchOutcome)
    (s : ComponentState) :
    (handleSearchTrace term outcome s).1.loading = true
    ∧ (handleSearchTrace term outcome s).2.loading = false := by
  refine ⟨rfl, ?_⟩
  cases outcome <;> simp only [handleSearchTrace, applySearchResponse] <;> split <;> rfl

/-- C4: every failed request is classified into exactly one of three
user-visible messages — no response yields "Something wrong with
network", a 404 status yields "No results found", any other error status
yields "Something wrong with server" — and in all three error cases the
results list is cleared. -/
theorem search_error_classification (term : String) (status : Int)
    (s : ComponentState) :
    ((handleSearchTrace term .noResponse s).2.error = some "Something wrong with network"
      ∧ (handleSearchTrace term .noResponse s).2.results = [])
    ∧ ((handleSearchTrace term (.errorStatus 404) s).2.error = some "No results found"
      ∧ (handleSearchTrace term (.errorStatus 404) s).2.results = [])
    ∧ (status ≠ 404 →
        (handleSearchTrace term (.errorStatus status) s).2.error = some "Something wrong with server"
        ∧ (handleSearchTrace term (.errorStatus status) s).2.results = []) := by
  refine ⟨⟨rfl, rfl⟩, ⟨?_, ?_⟩, fun h => ?_⟩
  · simp [handleSearchTrace, applySearchResponse]
  · simp [handleSearchTrace, applySearchResponse]
  · simp [handleSearchTrace, applySearchResponse, h]

/-- Witness for C4 at a concrete failed request: a 500 status produces
the server-error message and clears the results. -/
theorem search_error_classification_witness :
    (handleSearchTrace "x" (.errorStatus 500) sampleState).2.error
      = some "Something wrong with server"
    ∧ (handleSearchTrace "x" (.errorStatus 500) sampleState).2.results = [] :=
  (search_error_classification "x" 500 sampleState).2.2 (by decide)

/-- C6: ArrowDown sets the highlighted index to
`min (index + 1) (results.length - 1)`, so it never advances past
`results.length - 1`; ArrowUp sets it to `max (index - 1) 0`, so it
never decrements below 0; Tab without modifier moves the index forward
by one exactly while strictly below `results.length - 1` (so from an
in-range index it stays below the bound), and Shift+Tab moves it
backward by one exactly while strictly above 0 (so from a non-negative
index it stays non-negative). -/
theorem keyboard_navigation_clamped (s : ComponentState) :
    ((handleKeyDown .arrowDown s).highlightedIndex
        = min (s.highlightedIndex + 1) ((s.results.length : Int) - 1)
      ∧ (handleKeyDown .arrowDown s).highlightedIndex ≤ (s.results.length : Int) - 1)
    ∧ ((handleKeyDown .arrowUp s).highlightedIndex = max (s.highlightedIndex - 1) 0
      ∧ 0 ≤ (handleKeyDown .arrowUp s).highlightedIndex)
    ∧ ((handleKeyDown (.tab false) s).highlightedIndex
        = (if s.highlightedIndex < (s.results.length : Int) - 1 then
            s.highlightedIndex + 1 else s.highlightedIndex))
    ∧ ((handleKeyDown (.tab true) s).highlightedIndex
        = (if 0 < s.highlightedIndex then s.highlightedIndex - 1 else s.highlightedIndex))
    ∧ (s.highlightedIndex ≤ (s.results.length : Int) - 1 →
        (handleKeyDown (.tab false) s).highlightedIndex ≤ (s.results.length : Int) - 1)
    ∧ (0 ≤ s.highlightedIndex →
        0 ≤ (handleKeyDown (.tab true) s).highlightedIndex) := by
  refine ⟨⟨rfl, min_le_right _ _⟩, ⟨rfl, le_max_right _ _⟩, ?_, ?_, ?_, ?_⟩ <;>
    simp only [handleKeyDown] <;> split <;> simp_all <;> omega

/-- Witness for C6 at a concrete state: from index 1 with two results,
Tab stays within the bound and Shift+Tab stays non-negative. -/
theorem keyboard_navigation_clamped_witness :
    (handleKeyDown (.tab false) sampleState).highlightedIndex
      ≤ (sampleState.results.length : Int) - 1
    ∧ 0 ≤ (handleKeyDown (.tab true) sampleState).highlightedIndex :=
  ⟨(keyboard_navigation_clamped sampleState).2.2.2.2.1 (by decide),
   (keyboard_navigation_clamped sampleState).2.2.2.2.2 (by decide)⟩

/-- C10: an Enter key event when `results[highlightedIndex]` yields no
value (negative index or index at or past the length) is a guarded
no-op: the whole state — selection set, results, highlighted index — is
unchanged. -/
theorem enter_out_of_bounds_noop (s : ComponentState)
    (h : s.highlightedIndex < 0 ∨ (s.results.length : Int) ≤ s.highlightedIndex) :
    handleKeyDown .enter s = s := by
  have hnone : resultAt s.results s.highlightedIndex = none := by
    rcases h with h | h
    · simp [resultAt, h]
    · have h0 : ¬ s.highlightedIndex < 0 := by omega
      simp only [resultAt, h0, if_false, List.get?_eq_none]
      omega
  simp [handleKeyDown, hnone]

/-- Witness for C10: Enter on a state with an empty results list leaves
the state unchanged. -/
theorem enter_out_of_bounds_noop_witness :
    handleKeyDown .enter emptyResultsState = emptyResultsState :=
  enter_out_of_bounds_noop emptyResultsState (by decide)

/-- Filtering away an absent element changes nothing. -/
theorem filter_ne_of_not_mem {l : List String} {a : String} (h : a ∉ l) :
    l.filter (fun x => x ≠ a) = l :=
  List.filter_eq_self.mpr fun x hx => by
    simp only [decide_eq_true_eq]
    exact fun hxa => h (hxa ▸ hx)

/-- On a duplicate-free non-empty list, filtering away the last element
is exactly `dropLast`. -/
theorem filter_ne_getLast_eq_dropLast {l : List String} (hne : l ≠ [])
    (hnd : l.Nodup) :
    l.filter (fun x => x ≠ l.getLast hne) = l.dropLast := by
  obtain ⟨l', a, rfl⟩ : ∃ l' a, l = l' ++ [a] :=
    ⟨l.dropLast, l.getLast hne, (List.dropLast_append_getLast hne).symm⟩
  have hnotmem : a ∉ l' := by
    rw [List.nodup_append] at hnd
    intro hmem
    exact hnd.2.2 hmem (by simp)
  have hlast : (l' ++ [a]).getLast hne = a := List.getLast_concat l'
  rw [hlast, List.filter_append, filter_ne_of_not_mem hnotmem,
    List.dropLast_concat]
  simp

/-- C7: Backspace removes the most recently added selection exactly when
the search term is empty and at least one selection exists — on a
duplicate-free selection list it yields `dropLast` — and with a
non-empty search term, or an empty selection list, it changes
nothing. -/
theorem backspace_guarded (s : ComponentState) :
    (s.searchTerm = "" → s.selectedOptions ≠ [] → s.selectedOptions.Nodup →
        (handleKeyDown .backspace s).selectedOptions = s.selectedOptions.dropLast)
    ∧ (s.searchTerm ≠ "" → handleKeyDown .backspace s = s)
    ∧ (s.selectedOptions = [] → handleKeyDown .backspace s = s)
    ∧ ((handleKeyDown .backspace s).selectedOptions ≠ s.selectedOptions
        ↔ s.searchTerm = "" ∧ s.selectedOptions ≠ []) := by
  refine ⟨?_, ?_, ?_, ?_⟩
  · intro ht hne hnd
    simp only [handleKeyDown, ht, if_true, List.getLast?_eq_getLast _ hne]
    exact filter_ne_getLast_eq_dropLast hne hnd
  · intro ht
    simp [handleKeyDown, ht]
  · intro hsel
    simp [handleKeyDown, hsel]
  · constructor
    · intro hch
      by_cases ht : s.searchTerm = ""
      · by_cases hsel : s.selectedOptions = []
        · exact absurd (by simp [handleKeyDown, ht, hsel]) hch
        · exact ⟨ht, hsel⟩
      · exact absurd (by simp [handleKeyDown, ht]) hch
    · rintro ⟨ht, hne⟩
      simp only [handleKeyDown, ht, if_true, List.getLast?_eq_getLast _ hne]
      have hlt : (s.selectedOptions.filter
          (fun x => x ≠ s.selectedOptions.getLast hne)).length
            < s.selectedOptions.length := by
        refine List.length_filter_lt_length_iff_exists.mpr
          ⟨s.selectedOptions.getLast hne, List.getLast_mem hne, by simp⟩
      intro heq
      rw [heq] at hlt
      exact lt_irrefl _ hlt

/-- Witness for C7: on a state with selections `["a", "b"]` and an empty
search term, Backspace drops the most recently added selection. -/
theorem backspace_guarded_witness :
    (handleKeyDown .backspace emptyResultsState).selectedOptions
      = (["a", "b"] : List String).dropLast :=
  (backspace_guarded emptyResultsState).1 rfl (by decide) (by decide)

/-- C8: from a duplicate-free selection list, both `toggle` and `remove`
yield a duplicate-free list, and the surviving elements (those that were
already selected) keep their relative order — they form a sublist of the
original selection list. -/
theorem selection_uniqueness_preserved (l : String) (sel : List String)
    (hnd : sel.Nodup) :
    (toggleOption l sel).Nodup
    ∧ (removeOption l sel).Nodup
    ∧ ((toggleOption l sel).filter (fun x => decide (x ∈ sel))).Sublist sel
    ∧ (removeOption l sel).Sublist sel := by
  refine ⟨?_, List.Nodup.filter _ hnd, ?_, List.filter_sublist _⟩
  · by_cases hl : l ∈ sel
    · simpa [toggleOption, hl] using List.Nodup.filter _ hnd
    · simp only [toggleOption, hl, if_false]
      rw [List.nodup_append]
      exact ⟨hnd, List.nodup_singleton l,
        fun x hx hxl => hl ((List.mem_singleton.mp hxl) ▸ hx)⟩
  · by_cases hl : l ∈ sel
    · simp only [toggleOption, hl, if_true]
      have heq : ((sel.filter (fun x => x ≠ l)).filter
          (fun x => decide (x ∈ sel))) = sel.filter (fun x => x ≠ l) :=
        List.filter_eq_self.mpr fun x hx =>
          decide_eq_true (List.mem_of_mem_filter hx)
      rw [heq]
      exact List.filter_sublist _
    · simp only [toggleOption, hl, if_false]
      rw [List.filter_append]
      have h1 : sel.filter (fun x => decide (x ∈ sel)) = sel :=
        List.filter_eq_self.mpr fun x hx => decide_eq_true hx
      have h2 : ([l].filter (fun x => decide (x ∈ sel))) = [] := by
        simp [hl]
      rw [h1, h2, List.append_nil]

/-- Witness for C8: toggling a fresh label into `["a", "b"]` stays
duplicate-free, and removal yields a sublist of the original. -/
theorem selection_uniqueness_preserved_witness :
    (toggleOption "c" ["a", "b"]).Nodup
    ∧ (removeOption "a" ["a", "b"]).Sublist ["a", "b"] :=
  ⟨(selection_uniqueness_preserved "c" ["a", "b"] (by decide)).1,
   (selection_uniqueness_preserved "a" ["a", "b"] (by decide)).2.2.2⟩

/-- C2 counterexample: toggling `"a"` twice on the selection list
`["a", "b"]` does not restore the original order — it yields
`["b", "a"]`. -/
theorem toggle_twice_counterexample :
    ¬ (toggleOption "a" (toggleOption "a" ["a", "b"]) = ["a", "b"]) := by decide

/-- C2 amended: toggling a label twice restores the selection list
exactly when the label was not yet selected; when the label was already
selected, the double toggle removes it in place and re-appends it at the
end, which preserves the contents (a permutation, under the uniqueness
invariant) but not the original order. -/
theorem toggle_twice_amended (l : String) (sel : List String) :
    (l ∉ sel → toggleOption l (toggleOption l sel) = sel)
    ∧ (l ∈ sel →
        toggleOption l (toggleOption l sel) = sel.filter (fun x => x ≠ l) ++ [l])
    ∧ (sel.Nodup → (toggleOption l (toggleOption l sel)).Perm sel) := by
  have hnotmem : l ∉ sel → toggleOption l (toggleOption l sel) = sel := by
    intro hl
    simp only [toggleOption, hl, if_false]
    have hmem : l ∈ sel ++ [l] := List.mem_append_right _ (by simp)
    simp only [hmem, if_true, List.filter_append, filter_ne_of_not_mem hl]
    simp
  have hmem : l ∈ sel →
      toggleOption l (toggleOption l sel) = sel.filter (fun x => x ≠ l) ++ [l] := by
    intro hl
    have hnot : l ∉ sel.filter (fun x => x ≠ l) := by
      intro hc
      have := (List.mem_filter.mp hc).2
      simp at this
    simp only [toggleOption, hl, if_true, hnot, if_false]
  refine ⟨hnotmem, hmem, ?_⟩
  intro hnd
  by_cases hl : l ∈ sel
  · rw [hmem hl]
    have hcnt : List.count l sel = 1 := List.count_eq_one_of_mem hnd hl
    have hfe : sel.filter (fun x => !(decide (x ≠ l))) = [l] := by
      have hfun : (fun x : String => !(decide (x ≠ l))) = fun x => decide (x = l) := by
        funext x
        by_cases h : x = l <;> simp [h]
      rw [hfun, List.filter_eq, hcnt, List.replicate_one]
    have hperm := List.filter_append_perm (fun x => decide (x ≠ l)) sel
    rw [hfe] at hperm
    exact hperm
  · rw [hnotmem hl]

/-- Witness for C2 amended: double-toggling the fresh label `"c"`
restores `["a", "b"]` exactly, and double-toggling the present label
`"a"` yields a permutation of `["a", "b"]`. -/
theorem toggle_twice_amended_witness :
    toggleOption "c" (toggleOption "c" ["a", "b"]) = ["a", "b"]
    ∧ (toggleOption "a" (toggleOption "a" ["a", "b"])).Perm ["a", "b"] :=
  ⟨(toggle_twice_amended "c" ["a", "b"]).1 (by decide),
   (toggle_twice_amended "a" ["a", "b"]).2.2 (by decide)⟩

/-- Unfolding of `debounceRun` on a cons. -/
theorem debounceRun_cons {α : Type} (e : DebounceEvent α)
    (es : List (DebounceEvent α)) (s : DebounceState α) :
    debounceRun (e :: es) s = debounceRun es (debounceStep e s) := rfl

/-- From a state with no pending timer, a sequence of events containing
no invocation delivers nothing to the callback and leaves no timer
pending. -/
theorem debounceRun_no_invoke {α : Type} (es : List (DebounceEvent α))
    (s : DebounceState α) (hp : s.pending = none)
    (h : ∀ e ∈ es, e.isInvoke = false) :
    (debounceRun es s).fired = s.fired ∧ (debounceRun es s).pending = none := by
  induction es generalizing s with
  | nil => exact ⟨rfl, hp⟩
  | cons e es ih =>
    have htail : ∀ e' ∈ es, e'.isInvoke = false :=
      fun e' he' => h e' (List.mem_cons_of_mem _ he')
    cases e with
    | invoke a =>
        exact absurd (h _ (List.mem_cons_self _ _))
          (by simp [DebounceEvent.isInvoke])
    | fire =>
        rw [debounceRun_cons]
        have hstep : debounceStep .fire s = s := by
          simp [debounceStep, hp]
        rw [hstep]
        exact ih s hp htail
    | teardown =>
        rw [debounceRun_cons]
        exact ih _ rfl htail

/-- C9: in the debounce model over the single optional pending-timer
cell, an invocation replaces any pending scheduled call with a new one
carrying the latest argument (so at most one call is ever pending); a
pending call superseded by a new invocation never reaches the callback —
the timer that then fires delivers exactly the latest argument; and
after teardown, as long as the debounced function is not invoked again,
nothing is ever delivered to the callback and no timer is pending. -/
theorem debounce_cancel_and_teardown {α : Type} (s : DebounceState α) (a : α)
    (es : List (DebounceEvent α)) (hes : ∀ e ∈ es, e.isInvoke = false) :
    (debounceStep (.invoke a) s).pending = some a
    ∧ debounceRun [.invoke a, .fire] s
        = ⟨none, s.fired ++ [a], s.tornDown⟩
    ∧ (debounceStep .teardown s).pending = none
    ∧ (debounceRun es (debounceStep .teardown s)).fired = s.fired
    ∧ (debounceRun es (debounceStep .teardown s)).pending = none := by
  have hrun := debounceRun_no_invoke es (debounceStep .teardown s) rfl hes
  exact ⟨rfl, rfl, rfl, hrun.1, hrun.2⟩

/-- Witness for C9 at concrete inputs: from a state with a pending call
carrying `0`, invoking with `1` and letting the timer fire delivers only
`1`; tearing down and then firing twice delivers nothing. -/
theorem debounce_cancel_and_teardown_witness :
    debounceRun [.invoke 1, .fire] (⟨some 0, [], false⟩ : DebounceState Nat)
      = ⟨none, [1], false⟩
    ∧ (debounceRun [.fire, .fire]
        (debounceStep .teardown (⟨some 0, [], false⟩ : DebounceState Nat))).fired = [] :=
  ⟨(debounce_cancel_and_teardown (⟨some 0, [], false⟩ : DebounceState Nat) 1
      [] (by simp)).2.1,
   (debounce_cancel_and_teardown (⟨some 0, [], false⟩ : DebounceState Nat) 1
      [.fire, .fire] (by simp [DebounceEvent.isInvoke])).2.2.2.1⟩

/-- C1 counterexample: the state with two results and highlighted index
1 satisfies the invariant, but a success response for the non-empty term
`"a"` that replaces the results with a single-element list leaves the
highlighted index at 1, outside `[0, results.length - 1]` — the success
path never resets the index. -/
theorem query_invariant_counterexample :
    queryInvariant sampleState
    ∧ ¬ queryInvariant (handleSearchTrace "a" (.success [rick]) sampleState).2 := by
  decide

/-- C1 amended: every key event (in particular ArrowDown and ArrowUp)
preserves the invariant that the highlighted index lies within
`[0, results.length - 1]` whenever results are non-empty, and a success
response for an empty term clears the results and resets the index to 0;
but a success response for a non-empty term does not reset the index
(see the counterexample), and error responses clear the results without
resetting the index. -/
theorem query_invariant_amended (key : KeyEvent) (rs : List Character)
    (s : ComponentState) (hinv : queryInvariant s) :
    queryInvariant (handleKeyDown key s)
    ∧ (handleSearchTrace "" (.success rs) s).2.results = []
    ∧ (handleSearchTrace "" (.success rs) s).2.highlightedIndex = 0 := by
  refine ⟨?_, by simp [handleSearchTrace, applySearchResponse],
    by simp [handleSearchTrace, applySearchResponse]⟩
  cases key with
  | arrowDown =>
      intro hne
      have h := hinv hne
      have hlen : 0 < s.results.length := List.length_pos.mpr hne
      simp only [handleKeyDown] at *
      omega
  | arrowUp =>
      intro hne
      have h := hinv hne
      simp only [handleKeyDown] at *
      omega
  | tab shift =>
      cases shift <;> simp only [handleKeyDown, queryInvariant] <;> split <;>
        intro hne <;> have h := hinv hne <;> simp only at * <;> omega
  | enter =>
      cases hr : resultAt s.results s.highlightedIndex <;>
        simp only [handleKeyDown, queryInvariant, hr] <;> exact hinv
  | backspace =>
      simp only [handleKeyDown, queryInvariant]
      split
      · cases hg : s.selectedOptions.getLast? <;> simp only [hg] <;> exact hinv
      · exact hinv
  | other => exact hinv

/-- Witness for C1 amended: from the in-range sample state, ArrowDown
keeps the index in range, and an empty-term success resets results and
index. -/
theorem query_invariant_amended_witness :
    queryInvariant (handleKeyDown .arrowDown sampleState)
    ∧ (handleSearchTrace "" (.success [rick]) sampleState).2.highlightedIndex = 0 :=
  ⟨(query_invariant_amended .arrowDown [rick] sampleState (by decide)).1,
   (query_invariant_amended .arrowDown [rick] sampleState (by decide)).2.2⟩

/-! ### Lemmas about the case-insensitive split -/

/-- A successful prefix match reassembles the text, and the matched
slice lowercases to the term. -/
theorem dropMatchCI_spec (term : List Char) : ∀ (text m r : List Char),
    dropMatchCI term text = some (m, r) →
    m ++ r = text ∧ lowerChars m = lowerChars term := by
  induction term with
  | nil =>
      intro text m r h
      simp only [dropMatchCI, Option.some.injEq, Prod.mk.injEq] at h
      obtain ⟨hm, hr⟩ := h
      subst hm
      subst hr
      exact ⟨rfl, rfl⟩
  | cons t ts ih =>
      intro text m r h
      cases text with
      | nil => simp [dropMatchCI] at h
      | cons c cs =>
          simp only [dropMatchCI] at h
          by_cases hc : c.toLower = t.toLower
          · rw [if_pos hc] at h
            cases hd : dropMatchCI ts cs with
            | none => rw [hd] at h; simp at h
            | some p =>
                obtain ⟨m', r'⟩ := p
                rw [hd] at h
                simp only [Option.map_some', Option.some.injEq, Prod.mk.injEq] at h
                obtain ⟨hm, hr⟩ := h
                subst hm
                subst hr
                obtain ⟨h1, h2⟩ := ih cs m' r' hd
                refine ⟨by simp [h1], ?_⟩
                simp [lowerChars] at h2 ⊢
                exact ⟨hc, h2⟩
          · rw [if_neg hc] at h
            simp at h

/-- Conversely, a slice that lowercases to the term is matched by
`dropMatchCI`. -/
theorem dropMatchCI_complete (term : List Char) : ∀ (m r : List Char),
    lowerChars m = lowerChars term → dropMatchCI term (m ++ r) = some (m, r) := by
  induction term with
  | nil =>
      intro m r h
      have hm : m = [] := by simpa [lowerChars] using h
      subst hm
      rfl
  | cons t ts ih =>
      intro m r h
      cases m with
      | nil => simp [lowerChars] at h
      | cons c m' =>
          simp only [lowerChars, List.map_cons, List.cons.injEq] at h
          obtain ⟨hc, hm'⟩ := h
          have hrec : dropMatchCI ts (m' ++ r) = some (m', r) := ih m' r hm'
          simp [dropMatchCI, hc, hrec]

/-- A successful `findCI` decomposes the text around a matched slice
that lowercases to the term. -/
theorem findCI_spec (term : List Char) : ∀ (text b m r : List Char),
    findCI term text = some (b, m, r) →
    b ++ (m ++ r) = text ∧ lowerChars m = lowerChars term := by
  intro text
  induction text with
  | nil =>
      intro b m r h
      cases hd : dropMatchCI term [] with
      | none => simp [findCI, hd] at h
      | some p =>
          obtain ⟨m₀, r₀⟩ := p
          simp only [findCI, hd, Option.some.injEq, Prod.mk.injEq] at h
          rcases h with ⟨rfl, rfl, rfl⟩
          have hs := dropMatchCI_spec term [] _ _ hd
          exact ⟨by simp [hs.1], hs.2⟩
  | cons c cs ih =>
      intro b m r h
      cases hd : dropMatchCI term (c :: cs) with
      | some p =>
          obtain ⟨m₀, r₀⟩ := p
          simp only [findCI, hd, Option.some.injEq, Prod.mk.injEq] at h
          rcases h with ⟨rfl, rfl, rfl⟩
          have hs := dropMatchCI_spec term (c :: cs) _ _ hd
          exact ⟨by simp [hs.1], hs.2⟩
      | none =>
          cases hf : findCI term cs with
          | none => simp [findCI, hd, hf] at h
          | some q =>
              obtain ⟨b', m', r'⟩ := q
              simp only [findCI, hd, hf, Option.map_some', Option.some.injEq,
                Prod.mk.injEq] at h
              rcases h with ⟨rfl, rfl, rfl⟩
              obtain ⟨h1, h2⟩ := ih _ _ _ hf
              exact ⟨by simp [h1], h2⟩

/-- A failed `findCI` means the text holds no case-insensitive
occurrence of the term. -/
theorem findCI_none_not_contains (term : List Char) : ∀ (text : List Char),
    findCI term text = none → ¬ containsCI term text := by
  intro text
  induction text with
  | nil =>
      intro h hcon
      obtain ⟨pre, mid, post, htext, hmid⟩ := hcon
      have hpre : pre = [] ∧ mid = [] ∧ post = [] := by
        have := htext.symm
        simp only [List.append_eq_nil] at this
        exact ⟨this.1, this.2.1, this.2.2⟩
      have hterm : term = [] := by
        have := hmid
        rw [hpre.2.1] at this
        simpa [lowerChars, List.map_eq_nil_iff] using this.symm
      subst hterm
      simp [findCI, dropMatchCI] at h
  | cons c cs ih =>
      intro h hcon
      have hdrop : dropMatchCI term (c :: cs) = none := by
        cases hd : dropMatchCI term (c :: cs) with
        | none => rfl
        | some p =>
            obtain ⟨m₀, r₀⟩ := p
            simp [findCI, hd] at h
      have hrest : findCI term cs = none := by
        cases hf : findCI term cs with
        | none => rfl
        | some q =>
            obtain ⟨b', m', r'⟩ := q
            simp [findCI, hdrop, hf] at h
      obtain ⟨pre, mid, post, htext, hmid⟩ := hcon
      cases pre with
      | nil =>
          simp only [List.nil_append] at htext
          have hmatch := dropMatchCI_complete term mid post hmid
          rw [← htext] at hmatch
          rw [hmatch] at hdrop
          cases hdrop
      | cons p ps =>
          simp only [List.cons_append, List.cons.injEq] at htext
          exact ih hrest ⟨ps, mid, post, htext.2, hmid⟩

/-- Lemma: `findCI` fails exactly when the text holds no case-insensitive
occurrence of the term. -/
theorem findCI_none_iff (term text : List Char) :
    findCI term text = none ↔ ¬ containsCI term text := by
  constructor
  · exact findCI_none_not_contains term text
  · intro hncon
    cases hf : findCI term text with
    | none => rfl
    | some q =>
        obtain ⟨b, m, r⟩ := q
        have hs := findCI_spec term text b m r hf
        exact absurd ⟨b, m, r, hs.1.symm, hs.2⟩ hncon

/-- The stretch before the leftmost match holds no earlier match: for a
non-empty term, the `before` component returned by `findCI` fails
`findCI` itself. -/
theorem findCI_before_none (t : Char) (ts : List Char) : ∀ (text b m r : List Char),
    findCI (t :: ts) text = some (b, m, r) → findCI (t :: ts) b = none := by
  intro text
  induction text with
  | nil =>
      intro b m r h
      simp [findCI, dropMatchCI] at h
  | cons c cs ih =>
      intro b m r h
      cases hd : dropMatchCI (t :: ts) (c :: cs) with
      | some p =>
          obtain ⟨m₀, r₀⟩ := p
          simp only [findCI, hd, Option.some.injEq, Prod.mk.injEq] at h
          rcases h with ⟨rfl, rfl, rfl⟩
          simp [findCI, dropMatchCI]
      | none =>
          cases hf : findCI (t :: ts) cs with
          | none => simp [findCI, hd, hf] at h
          | some q =>
              obtain ⟨b', m', r'⟩ := q
              simp only [findCI, hd, hf, Option.map_some', Option.some.injEq,
                Prod.mk.injEq] at h
              rcases h with ⟨rfl, rfl, rfl⟩
              have hcs := (findCI_spec (t :: ts) cs b' m' r' hf).1
              have hbefore := ih b' m' r' hf
              have hdropb : dropMatchCI (t :: ts) (c :: b') = none := by
                cases hd2 : dropMatchCI (t :: ts) (c :: b') with
                | none => rfl
                | some p2 =>
                    obtain ⟨m₂, r₂⟩ := p2
                    obtain ⟨hsplit, hlow⟩ := dropMatchCI_spec (t :: ts) (c :: b') m₂ r₂ hd2
                    have hfull : dropMatchCI (t :: ts) (c :: cs) = some (m₂, r₂ ++ (m' ++ r')) := by
                      have heq : c :: cs = m₂ ++ (r₂ ++ (m' ++ r')) := by
                        rw [← List.append_assoc, hsplit, List.cons_append, hcs]
                      rw [heq]
                      exact dropMatchCI_complete (t :: ts) m₂ (r₂ ++ (m' ++ r')) hlow
                    rw [hfull] at hd
                    cases hd
              simp [findCI, hdropb, hbefore]

/-- The parts produced by the fuelled split always concatenate back to
the text. -/
theorem splitCIFuel_flatten (term : List Char) : ∀ (fuel : Nat) (text : List Char),
    (splitCIFuel fuel term text).flatten = text := by
  intro fuel
  induction fuel with
  | zero => intro text; simp [splitCIFuel]
  | succ n ih =>
      intro text
      cases hf : findCI term text with
      | none => simp [splitCIFuel, hf]
      | some q =>
          obtain ⟨b, m, r⟩ := q
          have hs := findCI_spec term text b m r hf
          simp only [splitCIFuel, hf, List.flatten_cons, ih r]
          rw [← List.append_assoc]
          simpa using hs.1

/-- With sufficient fuel and a non-empty term, every part produced by
the split either lowercases to the term (a matched slice) or holds no
case-insensitive occurrence of the term at all. -/
theorem splitCIFuel_parts (t : Char) (ts : List Char) : ∀ (fuel : Nat) (text : List Char),
    text.length < fuel →
    ∀ part ∈ splitCIFuel fuel (t :: ts) text,
      lowerChars part = lowerChars (t :: ts) ∨ findCI (t :: ts) part = none := by
  intro fuel
  induction fuel with
  | zero => intro text h; exact absurd h (Nat.not_lt_zero _)
  | succ n ih =>
      intro text hlt part hpart
      cases hf : findCI (t :: ts) text with
      | none =>
          simp only [splitCIFuel, hf, List.mem_singleton] at hpart
          subst hpart
          exact Or.inr hf
      | some q =>
          obtain ⟨b, m, r⟩ := q
          simp only [splitCIFuel, hf, List.mem_cons] at hpart
          rcases hpart with rfl | rfl | hmem
          · exact Or.inr (findCI_before_none t ts text part m r hf)
          · exact Or.inl (findCI_spec (t :: ts) text b part r hf).2
          · have hs := findCI_spec (t :: ts) text b m r hf
            have hmne : m ≠ [] := by
              intro hm
              rw [hm] at hs
              have := hs.2
              simp [lowerChars] at this
            have hrlen : r.length < text.length := by
              have hlen := congrArg List.length hs.1
              simp only [List.length_append] at hlen
              cases m with
              | nil => exact absurd rfl hmne
              | cons _ _ => simp at hlen; omega
            exact ih r (by omega) part hmem

/-- The parts of the empty-term split concatenate back to the text. -/
theorem splitEmptyTerm_flatten : ∀ (text : List Char),
    (splitEmptyTerm text).flatten = text := by
  intro text
  induction text with
  | nil => rfl
  | cons c cs ih =>
      cases cs with
      | nil => rfl
      | cons d ds =>
          simp only [splitEmptyTerm, List.flatten_cons] at ih ⊢
          simp [ih]

/-- C3 counterexample: with the empty search term, the formatter does
not return the two-character label `"ab"` unsplit and unemphasized — it
splits the label between the characters and emits an emphasized empty
segment (the captured empty separator satisfies the equality check
against the empty term). -/
theorem highlight_empty_term_counterexample :
    highlightSearchTerm ['a', 'b'] [] ≠ [(['a', 'b'], false)]
    ∧ highlightSearchTerm ['a', 'b'] []
        = [(['a'], false), ([], true), (['b'], false)]
    ∧ ([], true) ∈ highlightSearchTerm ['a', 'b'] [] := by decide

/-- C3 amended: the formatter's segments always concatenate back to the
label.  For a non-empty (literal) search term a segment is emphasized
exactly when it is a case-insensitive copy of the term, and every
unemphasized segment holds no case-insensitive occurrence of the term —
so the label is split precisely on the substring matches and exactly
those are emphasized.  For the empty search term the emphasized segments
are exactly the empty ones (no visible emphasis), but the label is split
rather than returned whole. -/
theorem highlight_formatter_amended (text term : List Char) :
    segsText (highlightSearchTerm text term) = text
    ∧ (term = [] → ∀ seg ∈ highlightSearchTerm text term,
        seg.2 = true ↔ seg.1 = [])
    ∧ (term ≠ [] → ∀ seg ∈ highlightSearchTerm text term,
        (seg.2 = true → lowerChars seg.1 = lowerChars term)
        ∧ (seg.2 = false → ¬ containsCI term seg.1)) := by
  refine ⟨?_, ?_, ?_⟩
  · show ((jsSplitCapture term text).map _ |>.map Prod.fst).flatten = text
    rw [List.map_map]
    have hid : (Prod.fst ∘ fun part : List Char =>
        (part, decide (lowerChars part = lowerChars term))) = id := rfl
    rw [hid, List.map_id]
    cases term with
    | nil => exact splitEmptyTerm_flatten text
    | cons t ts => exact splitCIFuel_flatten (t :: ts) (text.length + 1) text
  · rintro rfl seg hseg
    obtain ⟨part, _, rfl⟩ := List.mem_map.mp hseg
    simp [lowerChars, List.map_eq_nil_iff]
  · intro hterm seg hseg
    obtain ⟨t, ts, rfl⟩ : ∃ t ts, term = t :: ts := by
      cases term with
      | nil => exact absurd rfl hterm
      | cons t ts => exact ⟨t, ts, rfl⟩
    obtain ⟨part, hpart, rfl⟩ := List.mem_map.mp hseg
    constructor
    · intro hemph
      simpa using hemph
    · intro hnemph
      have hne : ¬ lowerChars part = lowerChars (t :: ts) := by
        simpa using hnemph
      have hopts := splitCIFuel_parts t ts (text.length + 1) text
        (Nat.lt_succ_self _) part hpart
      rcases hopts with h | h
      · exact absurd h hne
      · exact (findCI_none_iff _ _).mp h

/-- Witness for C3 amended at concrete inputs: highlighting
`"Rick"` with term `"ri"` concatenates back to the label, and its
unemphasized tail segment `"ck"` holds no case-insensitive occurrence of
`"ri"`. -/
theorem highlight_formatter_amended_witness :
    segsText (highlightSearchTerm ['R', 'i', 'c', 'k'] ['r', 'i'])
      = ['R', 'i', 'c', 'k']
    ∧ ¬ containsCI ['r', 'i'] ['c', 'k'] :=
  ⟨(highlight_formatter_amended ['R', 'i', 'c', 'k'] ['r', 'i']).1,
   ((highlight_formatter_amended ['R', 'i', 'c', 'k'] ['r', 'i']).2.2
      (by decide) (['c', 'k'], false) (by decide)).2 rfl⟩

end MultiSelect
